import Mathlib

/-!
Verification development for the CarritoCompraInventario repository.

Two subsystems are embedded here:

1. The tabular reinforcement-learning decision engine (state discretizer,
   value table, epsilon-greedy policy engine, temporal-difference learner,
   agent coordinator with checkpoint/restore).  The Python implementation of
   this engine (`rl_api.py` and the agent sources launched by the shell
   scripts in the repository) is not present in the source snapshot; those
   components are modelled from the specification, as flagged on each
   definition.

2. The revenue backend (`RevenueController.getRevenueByCountry` and
   `RevenueService._calculateSummary`), translated directly from the
   JavaScript sources.

Real values are modelled as rationals (ℚ): the numeric claims are stated as
exact identities, which the rational model decides exactly.
-/

namespace Carrito

/-- Modelled from the spec: a raw feature-vector field value, either
continuous or categorical (§3 Feature Vector).  The Python discretizer
sources are missing from the snapshot. -/
inductive FieldValue
  | num (q : ℚ)
  | cat (s : String)
deriving DecidableEq

/-- Modelled from the spec: per-field bin configuration (§4.1): a monotonic
boundary table for a continuous field, or a closed label enumeration with a
fallback bucket for a categorical field. -/
inductive FieldSpec
  | cont (thresholds : List ℚ)
  | cat (labels : List String)
deriving DecidableEq

/-- Number of bins a field spec defines: one more than the number of
boundaries for a continuous field; the label count plus the fallback bucket
for a categorical field. -/
def FieldSpec.binCount : FieldSpec → ℕ
  | .cont ts => ts.length + 1
  | .cat ls => ls.length + 1

/-- Modelled from the spec: the Agent Config (§3): learning rate α, discount
factor γ, exploration rate ε, the configured initial entry value, the action
count and the ordered bin configuration per feature. -/
structure Config where
  alpha : ℚ
  gamma : ℚ
  epsilon : ℚ
  initValue : ℚ
  actionCount : ℕ
  fields : List (String × FieldSpec)
deriving DecidableEq

/-- Look a named field up in a feature vector (an association list of named
field values); `none` models a missing field. -/
def findField : List (String × FieldValue) → String → Option FieldValue
  | [], _ => none
  | (n, v) :: rest, name => if n = name then some v else findField rest name

/-- Modelled from the spec: discretize one field (§4.1).  A continuous value
is located in the monotonic boundary table (out-of-range values clamp to the
first or last bin); a categorical value maps through the closed enumeration,
with the fallback bucket for unseen labels; a missing or type-mismatched
field falls back to the nearest defined bin (continuous) or the fallback
bucket (categorical). -/
def discretizeField : FieldSpec → Option FieldValue → ℕ
  | .cont ts, some (.num q) => (ts.filter (fun b => b ≤ q)).length
  | .cont _, _ => 0
  | .cat ls, some (.cat s) => if s ∈ ls then ls.indexOf s else ls.length
  | .cat ls, _ => ls.length

/-- Discretize a feature vector against an ordered field configuration: the
state key is the list of bin indices in the configured field order. -/
def discretizeFields (fs : List (String × FieldSpec))
    (features : List (String × FieldValue)) : List ℕ :=
  fs.map (fun f => discretizeField f.2 (findField features f.1))

/-- Modelled from the spec: `Discretize(features) -> StateKey` (§4.1), a
total function from feature vectors to state keys.  The missing Python
discretizer is modelled over the running Agent Config. -/
def discretize (cfg : Config) (features : List (String × FieldValue)) : List ℕ :=
  discretizeFields cfg.fields features

/-- A state key fits a field configuration when it has one bin index per
field and each index is below that field's bin count. -/
def keyFits : List ℕ → List (String × FieldSpec) → Bool
  | [], [] => true
  | b :: bs, f :: fs => decide (b < f.2.binCount) && keyFits bs fs
  | _, _ => false

/-- The finite set of state keys a field configuration can produce: all
lists of bin indices, componentwise below the per-field bin counts. -/
def fieldKeys : List (String × FieldSpec) → Finset (List ℕ)
  | [] => {[]}
  | f :: fs => ((Finset.range f.2.binCount) ×ˢ fieldKeys fs).image
      (fun p => p.1 :: p.2)

/-- A field value lies in a field's declared bin range: any number for a
continuous field, a declared label for a categorical field. -/
def inDeclaredRange : FieldSpec → Option FieldValue → Prop
  | .cont _, some (.num _) => True
  | .cat ls, some (.cat s) => s ∈ ls
  | _, _ => False

/-- All of a configuration's fields find an in-range value in the feature
vector. -/
def featuresInRange (cfg : Config) (features : List (String × FieldValue)) : Prop :=
  ∀ f ∈ cfg.fields, inDeclaredRange f.2 (findField features f.1)

lemma discretizeField_lt_binCount (f : FieldSpec) (v : Option FieldValue) :
    discretizeField f v < f.binCount := by
  cases f with
  | cont ts =>
    cases v with
    | none => simp [discretizeField, FieldSpec.binCount]
    | some fv =>
      cases fv with
      | num q =>
        simp only [discretizeField, FieldSpec.binCount]
        exact Nat.lt_succ_of_le (List.length_filter_le _ _)
      | cat s => simp [discretizeField, FieldSpec.binCount]
  | cat ls =>
    cases v with
    | none => simp [discretizeField, FieldSpec.binCount]
    | some fv =>
      cases fv with
      | num q => simp [discretizeField, FieldSpec.binCount]
      | cat s =>
        simp only [discretizeField, FieldSpec.binCount]
        split
        · next h => exact Nat.lt_succ_of_lt (List.indexOf_lt_length.mpr h)
        · exact Nat.lt_succ_self _

lemma keyFits_discretizeFields (fs : List (String × FieldSpec))
    (features : List (String × FieldValue)) :
    keyFits (discretizeFields fs features) fs = true := by
  induction fs with
  | nil => rfl
  | cons f rest ih =>
    simp only [discretizeFields, List.map_cons, keyFits, Bool.and_eq_true,
      decide_eq_true_eq]
    exact ⟨discretizeField_lt_binCount f.2 _, ih⟩

lemma mem_fieldKeys_of_keyFits (fs : List (String × FieldSpec)) (k : List ℕ)
    (h : keyFits k fs = true) : k ∈ fieldKeys fs := by
  induction fs generalizing k with
  | nil =>
    cases k with
    | nil => simp [fieldKeys]
    | cons b bs => simp [keyFits] at h
  | cons f rest ih =>
    cases k with
    | nil => simp [keyFits] at h
    | cons b bs =>
      simp only [keyFits, Bool.and_eq_true, decide_eq_true_eq] at h
      simp only [fieldKeys, Finset.mem_image]
      exact ⟨(b, bs), Finset.mem_product.mpr
        ⟨Finset.mem_range.mpr h.1, ih bs h.2⟩, rfl⟩

lemma fieldKeys_card (fs : List (String × FieldSpec)) :
    (fieldKeys fs).card = (fs.map (fun f => f.2.binCount)).prod := by
  induction fs with
  | nil => simp [fieldKeys]
  | cons f rest ih =>
    have hinj : Function.Injective (fun p : ℕ × List ℕ => p.1 :: p.2) := by
      intro p q hpq
      simp only [List.cons.injEq] at hpq
      exact Prod.ext hpq.1 hpq.2
    simp only [fieldKeys, List.map_cons, List.prod_cons]
    rw [Finset.card_image_of_injective _ hinj, Finset.card_product,
      Finset.card_range, ih]

/-- Modelled from the spec: the Value Table (§4.2), a sparse mapping from
state keys to fixed-length vectors of action values, here an association
list of entries.  The Python Q-table sources are missing from the
snapshot. -/
structure QTable where
  entries : List (List ℕ × List ℚ)
deriving DecidableEq

/-- `Size()` of the Value Table: the number of stored entries. -/
def QTable.size (t : QTable) : ℕ := t.entries.length

/-- Look a state key up among stored entries; `none` when the key has never
been stored. -/
def findVals : List (List ℕ × List ℚ) → List ℕ → Option (List ℚ)
  | [], _ => none
  | (k, v) :: rest, key => if k = key then some v else findVals rest key

/-- The configured initial entry: one configured initial value per action
(all zeros, or an optimistic initial value). -/
def initVector (cfg : Config) : List ℚ :=
  List.replicate cfg.actionCount cfg.initValue

/-- The observable value vector of a state key: its stored entry, or the
configured initial vector when unseen.  This is a pure read (used by the
policy engine); the mutating `Get` is `getEntry`. -/
def lookupValues (cfg : Config) (t : QTable) (k : List ℕ) : List ℚ :=
  (findVals t.entries k).getD (initVector cfg)

/-- Modelled from the spec: `Get(key)` (§4.2) returns the existing entry or
the configured initial vector if unseen, creating it on first access.
Returns the vector together with the (possibly grown) table. -/
def getEntry (cfg : Config) (t : QTable) (k : List ℕ) : List ℚ × QTable :=
  match findVals t.entries k with
  | some v => (v, t)
  | none => (initVector cfg, ⟨(k, initVector cfg) :: t.entries⟩)

/-- Replace slot `a` of the entry stored at `key` (first match); other
entries are untouched. -/
def updateEntries : List (List ℕ × List ℚ) → List ℕ → ℕ → ℚ → List (List ℕ × List ℚ)
  | [], _, _, _ => []
  | (k, v) :: rest, key, a, x =>
    if k = key then (k, v.set a x) :: rest
    else (k, v) :: updateEntries rest key a x

/-- Modelled from the spec: `Update(key, action, newValue)` (§4.2) replaces
one scalar in one entry. -/
def update (t : QTable) (k : List ℕ) (a : ℕ) (x : ℚ) : QTable :=
  ⟨updateEntries t.entries k a x⟩

/-- Maximum of a value vector (0 for an empty vector). -/
def listMax : List ℚ → ℚ
  | [] => 0
  | x :: xs => xs.foldl max x

/-- Modelled from the spec: the Learner's `Learn(prevKey, action, reward,
nextKey)` (§4.5): the temporal-difference update
`newValue = current + α * (reward + γ * max(next) - current)` written into
slot `action` of `prevKey`'s entry, entries being created lazily by `Get`.
The Python learner sources are missing from the snapshot. -/
def learn (cfg : Config) (t : QTable) (pk : List ℕ) (a : ℕ) (r : ℚ)
    (nk : List ℕ) : QTable :=
  let p := getEntry cfg t pk
  let n := getEntry cfg p.2 nk
  let cur := p.1.getD a 0
  let best := listMax n.1
  update n.2 pk a (cur + cfg.alpha * (r + cfg.gamma * best - cur))

/-- Lowest index of a maximal element of a value vector (0 for an empty
vector): ties between equal values resolve to the lower index. -/
def argmaxIdx : List ℚ → ℕ
  | [] => 0
  | [_] => 0
  | x :: y :: ys =>
    let j := argmaxIdx (y :: ys)
    if x < (y :: ys).getD j 0 then j + 1 else 0

/-- Modelled from the spec: the Policy Engine's `SelectAction(key, explore)`
(§4.3), epsilon-greedy: with exploration on and the uniform draw below ε, a
random action; otherwise the argmax over the key's value vector with
deterministic lowest-index tie-break.  The random draw and random action
index are passed explicitly, making the randomness source an input. -/
def selectAction (cfg : Config) (t : QTable) (k : List ℕ) (explore : Bool)
    (randDraw : ℚ) (randAct : ℕ) : ℕ :=
  if explore ∧ randDraw < cfg.epsilon then randAct % cfg.actionCount
  else argmaxIdx (lookupValues cfg t k)

/-- Modelled from the spec: the Agent Coordinator's `Recommend` (§4.6): runs
the Discretizer, guards that the produced key is well-formed for the running
configuration (the error branch), and runs the Policy Engine with
exploration enabled.  The Python coordinator sources are missing from the
snapshot. -/
def recommend (cfg : Config) (t : QTable) (features : List (String × FieldValue))
    (randDraw : ℚ) (randAct : ℕ) : Option (ℕ × List ℕ) :=
  let k := discretize cfg features
  if keyFits k cfg.fields then some (selectAction cfg t k true randDraw randAct, k)
  else none

/-- Modelled from the spec: the Agent Coordinator's `Feedback` (§4.6, §7):
a prior state key never produced by this table is dropped (logged and
ignored, returning `false`) rather than applied; a known key runs the
Learner.  The Python coordinator sources are missing from the snapshot. -/
def feedback (cfg : Config) (t : QTable) (prevKey : List ℕ) (a : ℕ) (r : ℚ)
    (nextKey : List ℕ) : QTable × Bool :=
  match findVals t.entries prevKey with
  | some _ => (learn cfg t prevKey a r nextKey, true)
  | none => (t, false)

/-- Modelled from the spec: a Checkpoint (§3, §6): a versioned snapshot of
the Value Table contents, the Agent Config, visit counts and a timestamp. -/
structure Checkpoint where
  version : ℕ
  createdAt : ℕ
  config : Config
  entries : List (List ℕ × List ℚ)
  visitCounts : List (List ℕ × ℕ)
deriving DecidableEq

/-- Modelled from the spec: `Checkpoint()` (§4.6) serializes the Value Table
together with the running config and counters. -/
def makeCheckpoint (cfg : Config) (t : QTable) (version createdAt : ℕ)
    (counts : List (List ℕ × ℕ)) : Checkpoint :=
  ⟨version, createdAt, cfg, t.entries, counts⟩

/-- The expected-versus-found config report of a failed restoration
(§6, §7). -/
structure RestoreError where
  expectedActionCount : ℕ
  foundActionCount : ℕ
  expectedFields : List (String × FieldSpec)
  foundFields : List (String × FieldSpec)
deriving DecidableEq

/-- Modelled from the spec: `Restore()` (§4.6, §6): rejects a checkpoint
whose recorded `config.action_count` or bin layout disagrees with the
running Agent Config, reporting expected versus found; otherwise rebuilds
the Value Table from the checkpoint entries. -/
def restoreTable (running : Config) (cp : Checkpoint) : Except RestoreError QTable :=
  if running.actionCount = cp.config.actionCount ∧ running.fields = cp.config.fields
  then Except.ok ⟨cp.entries⟩
  else Except.error ⟨running.actionCount, cp.config.actionCount,
    running.fields, cp.config.fields⟩

/-- Modelled from the spec: process startup from a checkpoint (§7): a
restoration failure is fatal at load time, so no table is produced and the
process does not begin serving (`none`). -/
def startServing (running : Config) (cp : Checkpoint) : Option QTable :=
  match restoreTable running cp with
  | Except.ok t => some t
  | Except.error _ => none

/-- Well-formedness of a table under a config: every stored entry has one
value per action. -/
def tableWF (cfg : Config) (t : QTable) : Prop :=
  ∀ kv ∈ t.entries, (kv.2 : List ℚ).length = cfg.actionCount

lemma getD_set_self (l : List ℚ) (a : ℕ) (x : ℚ) (h : a < l.length) :
    (l.set a x).getD a 0 = x := by
  induction l generalizing a with
  | nil => simp at h
  | cons y ys ih =>
    cases a with
    | zero => rfl
    | succ n =>
      simp only [List.set_cons_succ, List.getD_cons_succ]
      exact ih n (Nat.lt_of_succ_lt_succ h)

lemma getD_set_ne (l : List ℚ) (a i : ℕ) (x : ℚ) (h : i ≠ a) :
    (l.set a x).getD i 0 = l.getD i 0 := by
  induction l generalizing a i with
  | nil => simp
  | cons y ys ih =>
    cases a with
    | zero =>
      cases i with
      | zero => exact absurd rfl h
      | succ m => rfl
    | succ n =>
      cases i with
      | zero => rfl
      | succ m =>
        simp only [List.set_cons_succ, List.getD_cons_succ]
        exact ih n m (fun hc => h (congrArg Nat.succ hc))

lemma findVals_mem (es : List (List ℕ × List ℚ)) (k : List ℕ) (v : List ℚ)
    (h : findVals es k = some v) : (k, v) ∈ es := by
  induction es with
  | nil => simp [findVals] at h
  | cons e rest ih =>
    obtain ⟨ek, ev⟩ := e
    simp only [findVals] at h
    split at h
    · next heq =>
      injection h with h
      subst h
      subst heq
      exact List.mem_cons_self _ _
    · exact List.mem_cons_of_mem _ (ih h)

lemma findVals_updateEntries_self (es : List (List ℕ × List ℚ)) (k : List ℕ)
    (a : ℕ) (x : ℚ) :
    findVals (updateEntries es k a x) k = (findVals es k).map (fun v => v.set a x) := by
  induction es with
  | nil => rfl
  | cons e rest ih =>
    obtain ⟨ek, ev⟩ := e
    by_cases hk : ek = k
    · subst hk
      simp [updateEntries, findVals]
    · simp [updateEntries, findVals, hk, ih]

lemma findVals_updateEntries_ne (es : List (List ℕ × List ℚ)) (k k' : List ℕ)
    (a : ℕ) (x : ℚ) (h : k' ≠ k) :
    findVals (updateEntries es k a x) k' = findVals es k' := by
  induction es with
  | nil => rfl
  | cons e rest ih =>
    obtain ⟨ek, ev⟩ := e
    by_cases hk : ek = k
    · subst hk
      simp only [updateEntries, if_pos rfl, findVals]
      rw [if_neg (fun hc => h hc.symm), if_neg (fun hc => h hc.symm)]
    · simp only [updateEntries, if_neg hk, findVals]
      by_cases hk' : ek = k'
      · rw [if_pos hk', if_pos hk']
      · rw [if_neg hk', if_neg hk']
        exact ih

lemma getEntry_fst (cfg : Config) (t : QTable) (k : List ℕ) :
    (getEntry cfg t k).1 = lookupValues cfg t k := by
  unfold getEntry lookupValues
  cases findVals t.entries k <;> rfl

lemma findVals_getEntry_self (cfg : Config) (t : QTable) (k : List ℕ) :
    findVals (getEntry cfg t k).2.entries k = some (lookupValues cfg t k) := by
  unfold getEntry lookupValues
  cases h : findVals t.entries k with
  | none => simp [findVals]
  | some v => simp [h]

lemma findVals_getEntry_ne (cfg : Config) (t : QTable) (k k' : List ℕ)
    (h : k' ≠ k) :
    findVals (getEntry cfg t k).2.entries k' = findVals t.entries k' := by
  unfold getEntry
  cases hf : findVals t.entries k with
  | none =>
    simp only [findVals]
    rw [if_neg (fun hc => h hc.symm)]
  | some v => rfl

lemma findVals_getEntry_mono (cfg : Config) (t : QTable) (k k' : List ℕ)
    (v : List ℚ) (h : findVals t.entries k' = some v) :
    findVals (getEntry cfg t k).2.entries k' = some v := by
  by_cases hk : k' = k
  · subst hk
    rw [findVals_getEntry_self]
    unfold lookupValues
    rw [h]
    rfl
  · rw [findVals_getEntry_ne cfg t k k' hk]
    exact h

lemma lookupValues_getEntry (cfg : Config) (t : QTable) (k k' : List ℕ) :
    lookupValues cfg (getEntry cfg t k).2 k' = lookupValues cfg t k' := by
  by_cases hk : k' = k
  · subst hk
    unfold lookupValues
    rw [findVals_getEntry_self]
    rfl
  · unfold lookupValues
    rw [findVals_getEntry_ne cfg t k k' hk]

lemma tableWF_getEntry (cfg : Config) (t : QTable) (k : List ℕ)
    (h : tableWF cfg t) : tableWF cfg (getEntry cfg t k).2 := by
  unfold getEntry
  cases hf : findVals t.entries k with
  | some v => exact h
  | none =>
    intro kv hkv
    rcases List.mem_cons.mp hkv with hkv | hkv
    · subst hkv
      simp [initVector]
    · exact h kv hkv

lemma lookupValues_length (cfg : Config) (t : QTable) (k : List ℕ)
    (h : tableWF cfg t) : (lookupValues cfg t k).length = cfg.actionCount := by
  unfold lookupValues
  cases hf : findVals t.entries k with
  | none => simp [initVector]
  | some v => exact h (k, v) (findVals_mem t.entries k v hf)

lemma argmaxIdx_lt_length (l : List ℚ) (h : l ≠ []) : argmaxIdx l < l.length := by
  induction l with
  | nil => exact absurd rfl h
  | cons x xs ih =>
    cases xs with
    | nil => simp [argmaxIdx]
    | cons y ys =>
      simp only [argmaxIdx]
      split
      · exact Nat.succ_lt_succ (ih (by simp))
      · simp

lemma argmaxIdx_maximal (l : List ℚ) :
    ∀ i < l.length, l.getD i 0 ≤ l.getD (argmaxIdx l) 0 := by
  induction l with
  | nil => intro i hi; simp at hi
  | cons x xs ih =>
    cases xs with
    | nil =>
      intro i hi
      have hz : i = 0 := Nat.lt_one_iff.mp (by simpa using hi)
      subst hz
      simp [argmaxIdx]
    | cons y ys =>
      intro i hi
      simp only [argmaxIdx]
      split
      · next hlt =>
        cases i with
        | zero =>
          simpa using le_of_lt hlt
        | succ m =>
          simp only [List.getD_cons_succ]
          exact ih m (Nat.lt_of_succ_lt_succ hi)
      · next hge =>
        push_neg at hge
        cases i with
        | zero => simp
        | succ m =>
          simp only [List.getD_cons_succ, List.getD_cons_zero]
          exact le_trans (ih m (Nat.lt_of_succ_lt_succ hi)) hge

lemma argmaxIdx_least (l : List ℚ) :
    ∀ i < argmaxIdx l, l.getD i 0 < l.getD (argmaxIdx l) 0 := by
  induction l with
  | nil => intro i hi; simp [argmaxIdx] at hi
  | cons x xs ih =>
    cases xs with
    | nil => intro i hi; simp [argmaxIdx] at hi
    | cons y ys =>
      intro i hi
      simp only [argmaxIdx] at hi ⊢
      split
      · next hlt =>
        rw [if_pos hlt] at hi
        cases i with
        | zero => simpa using hlt
        | succ m =>
          simp only [List.getD_cons_succ]
          exact ih m (Nat.lt_of_succ_lt_succ hi)
      · next hge =>
        rw [if_neg hge] at hi
        simp at hi

lemma replicate_getD (n i : ℕ) (c : ℚ) (h : i < n) :
    (List.replicate n c).getD i 0 = c := by
  induction n generalizing i with
  | zero => simp at h
  | succ m ih =>
    cases i with
    | zero => rfl
    | succ j =>
      simp only [List.replicate_succ, List.getD_cons_succ]
      exact ih j (Nat.lt_of_succ_lt_succ h)

lemma argmaxIdx_replicate (n : ℕ) (c : ℚ) :
    argmaxIdx (List.replicate n c) = 0 := by
  cases n with
  | zero => rfl
  | succ m =>
    by_contra h
    have hj := argmaxIdx_lt_length (List.replicate (m + 1) c) (by simp)
    have hlt := argmaxIdx_least (List.replicate (m + 1) c) 0 (Nat.pos_of_ne_zero h)
    rw [replicate_getD _ _ _ (by simp), replicate_getD _ _ _ (by simpa using hj)] at hlt
    exact lt_irrefl _ hlt

lemma selectAction_no_explore (cfg : Config) (t : QTable) (k : List ℕ)
    (randDraw : ℚ) (randAct : ℕ) :
    selectAction cfg t k false randDraw randAct = argmaxIdx (lookupValues cfg t k) := by
  simp [selectAction]

lemma learn_eq (cfg : Config) (t : QTable) (pk : List ℕ) (a : ℕ) (r : ℚ)
    (nk : List ℕ) :
    learn cfg t pk a r nk =
      update (getEntry cfg (getEntry cfg t pk).2 nk).2 pk a
        ((lookupValues cfg t pk).getD a 0 +
          cfg.alpha * (r + cfg.gamma * listMax (lookupValues cfg t nk) -
            (lookupValues cfg t pk).getD a 0)) := by
  show update (getEntry cfg (getEntry cfg t pk).2 nk).2 pk a
      ((getEntry cfg t pk).1.getD a 0 +
        cfg.alpha * (r + cfg.gamma * listMax (getEntry cfg (getEntry cfg t pk).2 nk).1 -
          (getEntry cfg t pk).1.getD a 0)) = _
  rw [getEntry_fst, getEntry_fst, lookupValues_getEntry]

/-- A small concrete configuration used for the concrete update scenario:
α = 0.1, γ = 0.9, ε = 0 (pure exploitation), zero initial values, six
actions. -/
def exampleCfg : Config := ⟨1/10, 9/10, 0, 0, 6, []⟩

/-- Claim C1: one `Learn(prevKey, action, reward, nextKey)` call sets the
value at `(prevKey, action)` to `v + α*(r + γ*m - v)`, where `v` is the
prior value and `m` the maximum over the next key's entry, and changes no
other observable slot; concretely, with α = 0.1, γ = 0.9 on an empty table,
one transition `(S1, A2, 5.0, S2)` makes `Q[S1][A2] = 0.5` and a second
identical transition makes it `0.95`. -/
theorem C1_learn_td_update (cfg : Config) (t : QTable) (pk nk : List ℕ)
    (a : ℕ) (r : ℚ) (ha : a < cfg.actionCount) (hwf : tableWF cfg t) :
    (lookupValues cfg (learn cfg t pk a r nk) pk).getD a 0 =
        (lookupValues cfg t pk).getD a 0 +
          cfg.alpha * (r + cfg.gamma * listMax (lookupValues cfg t nk) -
            (lookupValues cfg t pk).getD a 0) ∧
    (∀ k i, ¬(k = pk ∧ i = a) →
        (lookupValues cfg (learn cfg t pk a r nk) k).getD i 0 =
          (lookupValues cfg t k).getD i 0) ∧
    (lookupValues exampleCfg (learn exampleCfg ⟨[]⟩ [1] 2 5 [2]) [1]).getD 2 0
        = 1/2 ∧
    (lookupValues exampleCfg
        (learn exampleCfg (learn exampleCfg ⟨[]⟩ [1] 2 5 [2]) [1] 2 5 [2])
        [1]).getD 2 0 = 19/20 := by
  have hfind1 : findVals (getEntry cfg t pk).2.entries pk
      = some (lookupValues cfg t pk) := findVals_getEntry_self cfg t pk
  have hfind2 : findVals (getEntry cfg (getEntry cfg t pk).2 nk).2.entries pk
      = some (lookupValues cfg t pk) :=
    findVals_getEntry_mono cfg _ nk pk _ hfind1
  have hlen : (lookupValues cfg t pk).length = cfg.actionCount :=
    lookupValues_length cfg t pk hwf
  refine ⟨?_, ?_,
    by norm_num [lookupValues, learn, getEntry, findVals, update, updateEntries,
      initVector, listMax, exampleCfg, List.replicate],
    by norm_num [lookupValues, learn, getEntry, findVals, update, updateEntries,
      initVector, listMax, exampleCfg, List.replicate]⟩
  · rw [learn_eq]
    unfold update lookupValues
    rw [findVals_updateEntries_self, hfind2]
    simp only [Option.map_some', Option.getD_some]
    exact getD_set_self _ a _ (by rw [hlen]; exact ha)
  · intro k i hki
    rw [learn_eq]
    by_cases hk : k = pk
    · subst hk
      have hia : i ≠ a := fun hia => hki ⟨rfl, hia⟩
      unfold update lookupValues
      rw [findVals_updateEntries_self, hfind2]
      simp only [Option.map_some', Option.getD_some]
      exact getD_set_ne _ a i _ hia
    · unfold update lookupValues
      rw [findVals_updateEntries_ne _ _ _ _ _ hk]
      have h1 : lookupValues cfg (getEntry cfg (getEntry cfg t pk).2 nk).2 k
          = lookupValues cfg t k := by
        rw [lookupValues_getEntry, lookupValues_getEntry]
      unfold lookupValues at h1
      rw [h1]

/-- Claim C1 witness: the theorem applied to the concrete scenario
configuration, an empty table and action index 2. -/
theorem C1_learn_td_update_witness :
    (2 < exampleCfg.actionCount ∧ tableWF exampleCfg ⟨[]⟩) ∧
    (lookupValues exampleCfg (learn exampleCfg ⟨[]⟩ [1] 2 5 [2]) [1]).getD 2 0
      = (lookupValues exampleCfg ⟨[]⟩ [1]).getD 2 0 +
        exampleCfg.alpha * (5 + exampleCfg.gamma *
          listMax (lookupValues exampleCfg ⟨[]⟩ [2]) -
          (lookupValues exampleCfg ⟨[]⟩ [1]).getD 2 0) :=
  ⟨⟨by decide, fun kv hkv => absurd hkv (List.not_mem_nil kv)⟩,
    (C1_learn_td_update exampleCfg ⟨[]⟩ [1] [2] 2 5 (by decide)
      (fun kv hkv => absurd hkv (List.not_mem_nil kv))).1⟩

/-- Claim C2: with exploration off, `SelectAction` is a deterministic
function of the Agent Config and the Value Table state (independent of the
random draws), returns an action index below the action count, returns a
maximizer of the key's value vector, breaks ties toward the lowest index
(in particular it returns action 0 on the all-equal entry of a never-seen
state), and `Discretize` is deterministic on identical feature vectors. -/
theorem C2_select_deterministic (cfg : Config) (t : QTable) (k : List ℕ)
    (r1 r2 : ℚ) (a1 a2 : ℕ) (f1 f2 : List (String × FieldValue))
    (hwf : tableWF cfg t) (hac : 0 < cfg.actionCount) :
    selectAction cfg t k false r1 a1 = selectAction cfg t k false r2 a2 ∧
    selectAction cfg t k false r1 a1 < cfg.actionCount ∧
    (∀ i < (lookupValues cfg t k).length,
      (lookupValues cfg t k).getD i 0 ≤
        (lookupValues cfg t k).getD (selectAction cfg t k false r1 a1) 0) ∧
    (∀ i < selectAction cfg t k false r1 a1,
      (lookupValues cfg t k).getD i 0 <
        (lookupValues cfg t k).getD (selectAction cfg t k false r1 a1) 0) ∧
    (findVals t.entries k = none → selectAction cfg t k false r1 a1 = 0) ∧
    (f1 = f2 → discretize cfg f1 = discretize cfg f2) := by
  have hlen : (lookupValues cfg t k).length = cfg.actionCount :=
    lookupValues_length cfg t k hwf
  have hne : lookupValues cfg t k ≠ [] := by
    intro hnil
    rw [hnil] at hlen
    exact absurd hlen.symm (Nat.pos_iff_ne_zero.mp hac)
  refine ⟨by rw [selectAction_no_explore, selectAction_no_explore], ?_, ?_, ?_, ?_, ?_⟩
  · rw [selectAction_no_explore, ← hlen]
    exact argmaxIdx_lt_length _ hne
  · rw [selectAction_no_explore]
    exact argmaxIdx_maximal _
  · rw [selectAction_no_explore]
    exact argmaxIdx_least _
  · intro hnone
    rw [selectAction_no_explore]
    unfold lookupValues
    rw [hnone]
    exact argmaxIdx_replicate _ _
  · intro hf
    rw [hf]

/-- Claim C2 witness: the theorem applied to the concrete scenario
configuration, an empty table and a concrete key. -/
theorem C2_select_deterministic_witness :
    (tableWF exampleCfg ⟨[]⟩ ∧ 0 < exampleCfg.actionCount) ∧
    selectAction exampleCfg ⟨[]⟩ [1] false 0 3
      = selectAction exampleCfg ⟨[]⟩ [1] false (1/2) 4 :=
  ⟨⟨fun kv hkv => absurd hkv (List.not_mem_nil kv), by decide⟩,
    (C2_select_deterministic exampleCfg ⟨[]⟩ [1] 0 (1/2) 3 4 [] []
      (fun kv hkv => absurd hkv (List.not_mem_nil kv)) (by decide)).1⟩

/-- Claim C3: `Feedback` with a prior state key never produced by the
running table is dropped: it does not raise (the coordinator returns the
dropped marker), `Size()` is unchanged, and every observable entry keeps
its values. -/
theorem C3_unknown_feedback_noop (cfg : Config) (t : QTable) (k : List ℕ)
    (a : ℕ) (r : ℚ) (nk : List ℕ) (h : findVals t.entries k = none) :
    feedback cfg t k a r nk = (t, false) ∧
    (feedback cfg t k a r nk).1.size = t.size ∧
    ∀ k', lookupValues cfg (feedback cfg t k a r nk).1 k'
      = lookupValues cfg t k' := by
  have hfb : feedback cfg t k a r nk = (t, false) := by
    unfold feedback
    rw [h]
  exact ⟨hfb, by rw [hfb], fun k' => by rw [hfb]⟩

/-- Claim C3 witness: feedback on a key unknown to the empty table. -/
theorem C3_unknown_feedback_noop_witness :
    findVals (QTable.mk []).entries [0] = none ∧
    feedback exampleCfg ⟨[]⟩ [0] 0 1 [1] = (⟨[]⟩, false) :=
  ⟨rfl, (C3_unknown_feedback_noop exampleCfg ⟨[]⟩ [0] 0 1 [1] rfl).1⟩

/-- Claim C4: `Discretize` is total — on every input feature vector
(missing fields and out-of-range values included) it produces a state key
whose every bin index is within the configured bin counts — and
consequently `Recommend` succeeds on every input: its error branch is never
taken. -/
theorem C4_discretize_total (cfg : Config) (t : QTable)
    (features : List (String × FieldValue)) (randDraw : ℚ) (randAct : ℕ) :
    keyFits (discretize cfg features) cfg.fields = true ∧
    recommend cfg t features randDraw randAct
      = some (selectAction cfg t (discretize cfg features) true randDraw randAct,
          discretize cfg features) := by
  have hfit : keyFits (discretize cfg features) cfg.fields = true :=
    keyFits_discretizeFields cfg.fields features
  refine ⟨hfit, ?_⟩
  show (if keyFits (discretize cfg features) cfg.fields = true then
      some (selectAction cfg t (discretize cfg features) true randDraw randAct,
        discretize cfg features)
    else none) = _
  rw [if_pos hfit]

/-- Claim C5: `Restore(Checkpoint())` is the identity on the observable
Value Table: restoration of a checkpoint taken under the running config
succeeds (the process serves), and the restored table has the same keys,
the same value vector for every key, and the same `Size()`. -/
theorem C5_checkpoint_roundtrip (cfg : Config) (t : QTable)
    (version createdAt : ℕ) (counts : List (List ℕ × ℕ)) :
    restoreTable cfg (makeCheckpoint cfg t version createdAt counts)
      = Except.ok t ∧
    startServing cfg (makeCheckpoint cfg t version createdAt counts) = some t ∧
    ∀ t', restoreTable cfg (makeCheckpoint cfg t version createdAt counts)
        = Except.ok t' →
      (∀ k, lookupValues cfg t' k = lookupValues cfg t k) ∧
        t'.size = t.size ∧
        t'.entries.map Prod.fst = t.entries.map Prod.fst := by
  have hok : restoreTable cfg (makeCheckpoint cfg t version createdAt counts)
      = Except.ok t := by
    unfold restoreTable makeCheckpoint
    rw [if_pos ⟨rfl, rfl⟩]
  refine ⟨hok, ?_, ?_⟩
  · unfold startServing
    rw [hok]
  · intro t' ht'
    rw [hok] at ht'
    injection ht' with ht'
    subst ht'
    exact ⟨fun k => rfl, rfl, rfl⟩

/-- A concrete config and feature vector for the bounded-key-space
witness: one continuous field with one boundary and one categorical field
with two labels. -/
def twoFieldCfg : Config :=
  ⟨0, 0, 0, 0, 2, [("x", .cont [1]), ("d", .cat ["a", "b"])]⟩

/-- Claim C6: for a feature vector whose fields lie within the declared bin
ranges, `Discretize` lands in a fixed finite key set determined by the
Agent Config alone, whose cardinality is the product of the per-field bin
counts. -/
theorem C6_bounded_key_space (cfg : Config)
    (features : List (String × FieldValue)) (h : featuresInRange cfg features) :
    discretize cfg features ∈ fieldKeys cfg.fields ∧
    (fieldKeys cfg.fields).card
      = (cfg.fields.map (fun f => f.2.binCount)).prod :=
  ⟨mem_fieldKeys_of_keyFits _ _ (keyFits_discretizeFields cfg.fields features),
    fieldKeys_card cfg.fields⟩

/-- Claim C6 witness: the theorem applied at a two-field configuration and
an in-range feature vector. -/
theorem C6_bounded_key_space_witness :
    featuresInRange twoFieldCfg [("x", .num 0), ("d", .cat "a")] ∧
    discretize twoFieldCfg [("x", .num 0), ("d", .cat "a")]
      ∈ fieldKeys twoFieldCfg.fields := by
  have hr : featuresInRange twoFieldCfg [("x", .num 0), ("d", .cat "a")] := by
    intro f hf
    simp only [twoFieldCfg, List.mem_cons, List.not_mem_nil, or_false] at hf
    rcases hf with rfl | rfl
    · simp [inDeclaredRange, findField]
    · simp [inDeclaredRange, findField]
  exact ⟨hr, (C6_bounded_key_space twoFieldCfg [("x", .num 0), ("d", .cat "a")] hr).1⟩

/-- A checkpoint recorded under a config whose action count disagrees with
`exampleCfg`. -/
def mismatchCheckpoint : Checkpoint :=
  ⟨1, 0, ⟨1/10, 9/10, 0, 0, 5, []⟩, [], []⟩

/-- Claim C7: `Restore` rejects every checkpoint whose recorded action
count or bin layout differs from the running Agent Config: restoration
fails with an error reporting expected versus found config, no entry is
loaded (no table is produced), and the process does not begin serving. -/
theorem C7_restore_rejects_mismatch (running : Config) (cp : Checkpoint)
    (h : running.actionCount ≠ cp.config.actionCount ∨
      running.fields ≠ cp.config.fields) :
    restoreTable running cp = Except.error
      ⟨running.actionCount, cp.config.actionCount,
        running.fields, cp.config.fields⟩ ∧
    startServing running cp = none := by
  have hcond : ¬(running.actionCount = cp.config.actionCount ∧
      running.fields = cp.config.fields) := by
    rcases h with h | h
    · exact fun hc => h hc.1
    · exact fun hc => h hc.2
  have herr : restoreTable running cp = Except.error
      ⟨running.actionCount, cp.config.actionCount,
        running.fields, cp.config.fields⟩ := by
    unfold restoreTable
    rw [if_neg hcond]
  refine ⟨herr, ?_⟩
  unfold startServing
  rw [herr]

/-- Claim C7 witness: restoring a checkpoint recorded with five actions
under a running config with six actions fails and the process does not
serve. -/
theorem C7_restore_rejects_mismatch_witness :
    (exampleCfg.actionCount ≠ mismatchCheckpoint.config.actionCount ∨
      exampleCfg.fields ≠ mismatchCheckpoint.config.fields) ∧
    startServing exampleCfg mismatchCheckpoint = none :=
  ⟨Or.inl (by decide),
    (C7_restore_rejects_mismatch exampleCfg mismatchCheckpoint
      (Or.inl (by decide))).2⟩

lemma getEntry_of_found (cfg : Config) (t : QTable) (k : List ℕ) (v : List ℚ)
    (h : findVals t.entries k = some v) : getEntry cfg t k = (v, t) := by
  unfold getEntry
  rw [h]

/-- Claim C8: `Get(key)` returns the stored entry, or the configured
initial vector for an unseen key; the returned vector has one value per
action; a first `Get` of an unseen key stores the entry (`Size()` grows by
exactly one), while a `Get` of a seen key leaves the table unchanged — in
particular a second `Get` of the same key changes nothing. -/
theorem C8_get_lazy_init (cfg : Config) (t : QTable) (k : List ℕ)
    (hwf : tableWF cfg t) :
    (getEntry cfg t k).1 = (findVals t.entries k).getD (initVector cfg) ∧
    (getEntry cfg t k).1.length = cfg.actionCount ∧
    (findVals t.entries k = none →
      (getEntry cfg t k).2.size = t.size + 1) ∧
    (∀ v, findVals t.entries k = some v → (getEntry cfg t k).2 = t) ∧
    (getEntry cfg (getEntry cfg t k).2 k).2 = (getEntry cfg t k).2 := by
  refine ⟨getEntry_fst cfg t k, ?_, ?_, ?_, ?_⟩
  · rw [getEntry_fst]
    exact lookupValues_length cfg t k hwf
  · intro h
    unfold getEntry
    rw [h]
    simp [QTable.size]
  · intro v h
    rw [getEntry_of_found cfg t k v h]
  · rw [getEntry_of_found cfg (getEntry cfg t k).2 k _
      (findVals_getEntry_self cfg t k)]

/-- Claim C8 witness: the theorem applied to the empty table and a concrete
key. -/
theorem C8_get_lazy_init_witness :
    tableWF exampleCfg ⟨[]⟩ ∧
    (getEntry exampleCfg ⟨[]⟩ [1]).1.length = exampleCfg.actionCount :=
  ⟨fun kv hkv => absurd hkv (List.not_mem_nil kv),
    (C8_get_lazy_init exampleCfg ⟨[]⟩ [1]
      (fun kv hkv => absurd hkv (List.not_mem_nil kv))).2.1⟩

/-- A 400 response from the revenue controller: HTTP status, success flag
and error message (src/unnamed/part_007, the `res.status(400).json`
branches). -/
structure BadRequestResponse where
  status : ℕ
  success : Bool
  errorMsg : String
deriving DecidableEq

/-- The controller's decision on a request whose parameters passed Joi
validation: either an immediate rejection (the revenue service is not
invoked) or the forwarding of the validated parameters to
`revenueService.getRevenueByCountry`. -/
inductive ControllerOutcome
  | rejected (response : BadRequestResponse)
  | forwarded (country : String) (startDate endDate : Int) (useCache : Bool)
deriving DecidableEq

/-- `RevenueController.getRevenueByCountry` date validation
(src/unnamed/part_007 lines 11-68), after Joi validation produced
`country`, `startDate`, `endDate`, `useCache`.  Dates are modelled at day
granularity, matching the controller's whole-day range check; `now` is the
current date. -/
def getRevenueByCountry (now : Int) (country : String)
    (startDate endDate : Int) (useCache : Bool) : ControllerOutcome :=
  if endDate < startDate then
    .rejected ⟨400, false, "La fecha de inicio debe ser anterior a la fecha final"⟩
  else if 730 < endDate - startDate then
    .rejected ⟨400, false, "El rango de fechas no puede exceder 2 años"⟩
  else if now < endDate then
    .rejected ⟨400, false, "La fecha final no puede ser futura"⟩
  else
    .forwarded country startDate endDate useCache

/-- Claim C9: `RevenueController.getRevenueByCountry` responds 400 with
`success: false` — without invoking the revenue service — whenever the
validated start date is after the end date, the range exceeds 730 days, or
the end date is in the future; only requests passing all three checks are
forwarded to the service. -/
theorem C9_revenue_date_validation (now : Int) (country : String)
    (startDate endDate : Int) (useCache : Bool) :
    ((endDate < startDate ∨ 730 < endDate - startDate ∨ now < endDate) →
      ∃ msg, getRevenueByCountry now country startDate endDate useCache
        = .rejected ⟨400, false, msg⟩) ∧
    (¬(endDate < startDate ∨ 730 < endDate - startDate ∨ now < endDate) →
      getRevenueByCountry now country startDate endDate useCache
        = .forwarded country startDate endDate useCache) := by
  constructor
  · intro h
    unfold getRevenueByCountry
    by_cases h1 : endDate < startDate
    · rw [if_pos h1]
      exact ⟨_, rfl⟩
    · rw [if_neg h1]
      by_cases h2 : 730 < endDate - startDate
      · rw [if_pos h2]
        exact ⟨_, rfl⟩
      · rw [if_neg h2]
        have h3 : now < endDate := by tauto
        rw [if_pos h3]
        exact ⟨_, rfl⟩
  · intro h
    have h1 : ¬ endDate < startDate := fun hc => h (Or.inl hc)
    have h2 : ¬ 730 < endDate - startDate := fun hc => h (Or.inr (Or.inl hc))
    have h3 : ¬ now < endDate := fun hc => h (Or.inr (Or.inr hc))
    unfold getRevenueByCountry
    rw [if_neg h1, if_neg h2, if_neg h3]

/-- Claim C9 witness: a 5000-day range starting at day 0 with `now` = day
100 is rejected with a 400 response. -/
theorem C9_revenue_date_validation_witness :
    ((5000 : Int) < 0 ∨ (730 : Int) < 5000 - 0 ∨ (100 : Int) < 5000) ∧
    ∃ msg, getRevenueByCountry 100 "Spain" 0 5000 true
      = .rejected ⟨400, false, msg⟩ :=
  ⟨Or.inr (Or.inl (by decide)),
    (C9_revenue_date_validation 100 "Spain" 0 5000 true).1
      (Or.inr (Or.inl (by decide)))⟩

/-- One row of `revenue_by_country_time` as `_calculateSummary` reads it.
`none` on a revenue field models a missing or non-numeric value, which JS
`parseFloat(x) || 0` coerces to 0; `none` on `orderCount` models a missing
or falsy `order_count`, which `|| 0` coerces to 0. -/
structure RevRow where
  revenueGBP : Option ℚ
  revenueUSD : Option ℚ
  orderCount : Option ℚ
  customerId : Option String
deriving DecidableEq

/-- JS `Math.round`: round half toward positive infinity. -/
def jsRound (q : ℚ) : ℤ := ⌊q + 1/2⌋

/-- JS `Math.round(x * 100) / 100`: round to two decimals. -/
def round2 (q : ℚ) : ℚ := (jsRound (q * 100) : ℚ) / 100

/-- The object `_calculateSummary` returns.  An `Option` field set to
`none` marks a key the returned JS object does not carry: the empty-input
object carries `totalRevenue` but not `totalRevenueGBP`, `totalRevenueUSD`
or `uniqueCustomers`, and vice versa for the non-empty case. -/
structure Summary where
  totalRevenue : Option ℚ
  totalRevenueGBP : Option ℚ
  totalRevenueUSD : Option ℚ
  totalOrders : ℚ
  uniqueCustomers : Option ℕ
  avgOrderValue : ℚ
deriving DecidableEq

/-- Sum of the coerced `revenue_gbp` fields. -/
def sumGBP (rows : List RevRow) : ℚ :=
  (rows.map (fun r => r.revenueGBP.getD 0)).sum

/-- Sum of the coerced `revenue_usd` fields. -/
def sumUSD (rows : List RevRow) : ℚ :=
  (rows.map (fun r => r.revenueUSD.getD 0)).sum

/-- Sum of the coerced `order_count` fields. -/
def sumOrders (rows : List RevRow) : ℚ :=
  (rows.map (fun r => r.orderCount.getD 0)).sum

/-- `RevenueService._calculateSummary` (src/unnamed/part_002 lines
247-264).  The argument is `none` when the row list itself is missing
(JS `!rows`). -/
def calculateSummary : Option (List RevRow) → Summary
  | none => ⟨some 0, none, none, 0, none, 0⟩
  | some [] => ⟨some 0, none, none, 0, none, 0⟩
  | some rows =>
    let tG := sumGBP rows
    let tO := sumOrders rows
    ⟨none, some (round2 tG), some (round2 (sumUSD rows)), tO,
      some ((rows.map (fun r => r.customerId)).dedup.length),
      if 0 < tO then round2 (tG / tO) else 0⟩

/-- Claim C10: `_calculateSummary` is total and never divides by zero: a
missing or empty row list yields `{totalRevenue: 0, totalOrders: 0,
avgOrderValue: 0}`; otherwise `avgOrderValue` is `totalRevenueGBP /
totalOrders` rounded to two decimals when `totalOrders > 0` and `0` when it
is not, and a non-numeric revenue field contributes 0 to the sum. -/
theorem C10_summary_division_guard (rows : List RevRow) :
    calculateSummary none = ⟨some 0, none, none, 0, none, 0⟩ ∧
    calculateSummary (some []) = ⟨some 0, none, none, 0, none, 0⟩ ∧
    (rows ≠ [] →
      (calculateSummary (some rows)).totalOrders = sumOrders rows ∧
      (0 < sumOrders rows →
        (calculateSummary (some rows)).avgOrderValue
          = round2 (sumGBP rows / sumOrders rows)) ∧
      (¬ 0 < sumOrders rows →
        (calculateSummary (some rows)).avgOrderValue = 0)) ∧
    (∀ (r : RevRow) (rest : List RevRow), r.revenueGBP = none →
      sumGBP (r :: rest) = sumGBP rest) := by
  refine ⟨rfl, rfl, ?_, ?_⟩
  · intro hne
    cases rows with
    | nil => exact absurd rfl hne
    | cons r rs =>
      refine ⟨rfl, ?_, ?_⟩
      · intro h
        show (if 0 < sumOrders (r :: rs) then
            round2 (sumGBP (r :: rs) / sumOrders (r :: rs)) else 0)
          = round2 (sumGBP (r :: rs) / sumOrders (r :: rs))
        rw [if_pos h]
      · intro h
        show (if 0 < sumOrders (r :: rs) then
            round2 (sumGBP (r :: rs) / sumOrders (r :: rs)) else 0) = 0
        rw [if_neg h]
  · intro r rest hnone
    unfold sumGBP
    rw [List.map_cons, List.sum_cons, hnone]
    simp

/-- Claim C10 witness: a single row with revenue 10 over 4 orders averages
to `round2 (10 / 4)`. -/
theorem C10_summary_division_guard_witness :
    ([(⟨some 10, some 12, some 4, some "c1"⟩ : RevRow)] ≠ ([] : List RevRow)) ∧
    0 < sumOrders [⟨some 10, some 12, some 4, some "c1"⟩] ∧
    (calculateSummary (some [⟨some 10, some 12, some 4, some "c1"⟩])).avgOrderValue
      = round2 (sumGBP [⟨some 10, some 12, some 4, some "c1"⟩]
          / sumOrders [⟨some 10, some 12, some 4, some "c1"⟩]) := by
  have hne : ([(⟨some 10, some 12, some 4, some "c1"⟩ : RevRow)] ≠ ([] : List RevRow)) := by
    simp
  have hpos : 0 < sumOrders [(⟨some 10, some 12, some 4, some "c1"⟩ : RevRow)] := by
    norm_num [sumOrders]
  exact ⟨hne, hpos,
    ((C10_summary_division_guard [⟨some 10, some 12, some 4, some "c1"⟩]).2.2.1
      hne).2.1 hpos⟩

end Carrito
